import Mathlib

/-!
Verification of the `SudokuGenerator` module of the Brain9x puzzle engine
(`src/js/ui.js`).  The JavaScript arrays of the engine are modelled as Lean
lists: a board is a list of rows, a row a list of naturals, 0 meaning an
empty cell.  All mutation in the source is modelled by explicit state
passing: the backtracking helpers return the final contents of the board
they worked on next to their result, so that restoration-on-backtrack is a
provable property rather than an assumption.  Recursion that is unbounded
in the source (the solver's descent, the do/while rejection loop of
`fillBox`) is given explicit fuel; 82 units of fuel are strictly more than
the 81 cells of a board, so the fuel never runs out on the intended domain.
The ambient `Math.random()` source is modelled as an arbitrary stream of
naturals, each call site reducing the next entry modulo the range it needs;
an index into the stream is threaded through the generation pipeline.
-/

set_option maxRecDepth 4000

namespace SudokuGen

/-- A sudoku board exactly as the source holds it: an array of rows, each an
array of numbers, with 0 for an empty cell. -/
abbrev Grid := List (List Nat)

/-- The stream of `Math.random()` outcomes: entry `k` is the k-th draw,
already scaled to a natural; each call site reduces it modulo its range. -/
abbrev Rng := Nat → Nat

/-- `createEmptyBoard` from the source: a 9×9 board filled with 0. -/
def createEmptyBoard : Grid := List.replicate 9 (List.replicate 9 0)

/-- Reading `board[row][col]`; off the 9×9 shape the read defaults to 0. -/
def getCell (board : Grid) (row col : Nat) : Nat := (board.getD row []).getD col 0

/-- Writing `board[row][col] = v`; off the shape the write is a no-op. -/
def setCell (board : Grid) (row col v : Nat) : Grid :=
  board.set row ((board.getD row []).set col v)

/-- `isValid` from the source: false when `num` already occurs anywhere in row
`row`, in column `col`, or in the 3×3 box with origin
`(row/3*3, col/3*3)` — the scanned cells include `(row, col)` itself. -/
def isValid (board : Grid) (row col num : Nat) : Bool :=
  ((List.range 9).all fun x => getCell board row x != num) &&
  ((List.range 9).all fun x => getCell board x col != num) &&
  ((List.range 3).all fun i => (List.range 3).all fun j =>
    getCell board (row / 3 * 3 + i) (col / 3 * 3 + j) != num)

/-- All 81 coordinates in row-major order, as built by the position loop of
`pokeHoles` and implicitly scanned by the solver's nested loops. -/
def allPositions : List (Nat × Nat) :=
  ((List.range 9).map fun i => (List.range 9).map fun j => (i, j)).flatten

/-- Row-major scan for the first empty cell, over an explicit coordinate
list: this is the `for row / for col / if (board[row][col] === 0)` pattern
shared by `solve` and `countSolutions`. -/
def findEmptyIn (board : Grid) : List (Nat × Nat) → Option (Nat × Nat)
  | [] => none
  | p :: ps => if getCell board p.1 p.2 == 0 then some p else findEmptyIn board ps

/-- The first empty cell of the board in row-major order, if any. -/
def findEmpty (board : Grid) : Option (Nat × Nat) := findEmptyIn board allPositions

/-- The digits 1 through 9 in the order the `for (num = 1; num <= 9; num++)`
loops try them. -/
def digits : List Nat := [1, 2, 3, 4, 5, 6, 7, 8, 9]

/-- One iteration of the digit loop inside the `solveCount` helper of
`countSolutions`: skip once the running count exceeds 1 (the source's early
`return`), otherwise tentatively place a legal digit, recurse through `go`,
and undo the placement. -/
def countStep (go : Grid → Nat → Grid × Nat) (row col : Nat)
    (acc : Grid × Nat) (num : Nat) : Grid × Nat :=
  if acc.2 > 1 then acc
  else if isValid acc.1 row col num then
    let next := go (setCell acc.1 row col num) acc.2
    (setCell next.1 row col 0, next.2)
  else acc

/-- The recursive `solveCount` helper of `countSolutions`, with the board it
worked on returned next to the running count so that restoration is
observable.  A board with no empty cell bumps the count. -/
def solveCount : Nat → Grid → Nat → Grid × Nat
  | 0, board, count => (board, count)
  | fuel + 1, board, count =>
    match findEmpty board with
    | none => (board, count + 1)
    | some (row, col) => digits.foldl (countStep (solveCount fuel) row col) (board, count)

/-- `countSolutions` from the source, together with the final contents of the
board it was run on. -/
def countSolutionsRun (board : Grid) : Grid × Nat := solveCount 82 board 0

/-- `countSolutions(board)`: the number of completions found before the
early-termination cap cuts the search. -/
def countSolutions (board : Grid) : Nat := (countSolutionsRun board).2

/-- One iteration of the digit loop inside `solve`: once solved, later digits
are skipped (the source returns immediately); otherwise place a legal digit,
recurse through `go`, and on failure reset the cell to 0. -/
def solveStep (go : Grid → Grid × Bool) (row col : Nat)
    (acc : Grid × Bool) (num : Nat) : Grid × Bool :=
  match acc with
  | (board, true) => (board, true)
  | (board, false) =>
    if isValid board row col num then
      match go (setCell board row col num) with
      | (b2, true) => (b2, true)
      | (b2, false) => (setCell b2 row col 0, false)
    else (board, false)

/-- `solve` from the source: fill the first empty cell with the least legal
digit that lets the rest of the board be completed; returns the board
together with the success flag. -/
def solve : Nat → Grid → Grid × Bool
  | 0, board => (board, false)
  | fuel + 1, board =>
    match findEmpty board with
    | none => (board, true)
    | some (row, col) => digits.foldl (solveStep (solve fuel) row col) (board, false)

/-- `isSafeInBox` from the source: no cell of the 3×3 box with origin
`(rowStart, colStart)` already holds `num`. -/
def isSafeInBox (board : Grid) (rowStart colStart num : Nat) : Bool :=
  (List.range 3).all fun i => (List.range 3).all fun j =>
    getCell board (rowStart + i) (colStart + j) != num

/-- The `do { num = floor(random()*9)+1 } while (!isSafeInBox(..))` rejection
loop of `fillBox`: draw from the stream at index `k` until the drawn digit is
safe in the box; `none` when the fuel runs out (the source would spin). -/
def drawSafe (rng : Rng) (board : Grid) (rowStart colStart : Nat) :
    Nat → Nat → Option (Nat × Nat)
  | 0, _ => none
  | fuel + 1, k =>
    let num := rng k % 9 + 1
    if isSafeInBox board rowStart colStart num then some (num, k + 1)
    else drawSafe rng board rowStart colStart fuel (k + 1)

/-- The nine in-box offsets in the order `fillBox` visits them. -/
def boxCells : List (Nat × Nat) :=
  ((List.range 3).map fun i => (List.range 3).map fun j => (i, j)).flatten

/-- `fillBox` from the source: fill the box with origin `(row, col)` cell by
cell with randomly drawn digits that are safe within the box. -/
def fillBox (fuel : Nat) (rng : Rng) (board : Grid) (row col k : Nat) :
    Option (Grid × Nat) :=
  boxCells.foldl
    (fun acc ij =>
      acc.bind fun bk =>
        (drawSafe rng bk.1 row col fuel bk.2).map fun nk =>
          (setCell bk.1 (row + ij.1) (col + ij.2) nk.1, nk.2))
    (some (board, k))

/-- `generateFullBoard` from the source: seed the three diagonal boxes from
the random stream, then run `solve`; the solver's success flag is ignored and
the board is returned as the source does. -/
def generateFullBoard (fuel : Nat) (rng : Rng) (k : Nat) : Option (Grid × Nat) :=
  (fillBox fuel rng createEmptyBoard 0 0 k).bind fun bk1 =>
    (fillBox fuel rng bk1.1 3 3 bk1.2).bind fun bk2 =>
      (fillBox fuel rng bk2.1 6 6 bk2.2).map fun bk3 =>
        ((solve 82 bk3.1).1, bk3.2)

/-- The `[array[i], array[j]] = [array[j], array[i]]` destructuring swap of
`shuffleArray`: both old entries are read before either write. -/
def swapPositions (l : List (Nat × Nat)) (i j : Nat) : List (Nat × Nat) :=
  (l.set i (l.getD j (0, 0))).set j (l.getD i (0, 0))

/-- The body of `shuffleArray`'s Fisher–Yates loop; the first argument is the
current index `i`, counting down to 1. -/
def shuffleGo (rng : Rng) : Nat → List (Nat × Nat) → Nat → List (Nat × Nat) × Nat
  | 0, arr, k => (arr, k)
  | i + 1, arr, k =>
    shuffleGo rng i (swapPositions arr (i + 1) (rng k % (i + 2))) (k + 1)

/-- `shuffleArray` from the source (Fisher–Yates, driven by the stream). -/
def shuffleArray (rng : Rng) (arr : List (Nat × Nat)) (k : Nat) :
    List (Nat × Nat) × Nat :=
  shuffleGo rng (arr.length - 1) arr k

/-- The difficulty switch of `pokeHoles`: the inclusive range of clues to
keep; unrecognized tags take the `default` branch, the medium range. -/
def tierRange : String → Nat × Nat
  | "easy" => (35, 40)
  | "medium" => (30, 34)
  | "hard" => (25, 29)
  | _ => (30, 34)

/-- The `board.map(row => [...row])` deep copy `pokeHoles` takes of its
input before excavating. -/
def copyGrid (board : Grid) : Grid := board.map fun row => row.map fun v => v

/-- The excavation loop of `pokeHoles`: walk the shuffled coordinates, stop
once enough holes are poked; tentatively zero each cell, keep the hole only
when the puzzle still counts exactly one solution, otherwise restore the
backup.  Returns the puzzle and the number of holes poked. -/
def pokeLoop : List (Nat × Nat) → Grid → Nat → Nat → Grid × Nat
  | [], puzzle, holesPoked, _ => (puzzle, holesPoked)
  | pos :: rest, puzzle, holesPoked, holesToPoke =>
    if holesPoked ≥ holesToPoke then (puzzle, holesPoked)
    else
      let backup := getCell puzzle pos.1 pos.2
      let poked := setCell puzzle pos.1 pos.2 0
      if countSolutions (copyGrid poked) == 1 then
        pokeLoop rest poked (holesPoked + 1) holesToPoke
      else
        pokeLoop rest (setCell poked pos.1 pos.2 backup) holesPoked holesToPoke

/-- `pokeHoles` from the source, keeping the internal outcomes visible:
returns the puzzle, the number of holes actually poked, and the next index
into the random stream. -/
def pokeHolesRun (board : Grid) (difficulty : String) (rng : Rng) (k : Nat) :
    Grid × Nat × Nat :=
  let r := tierRange difficulty
  let numbersToKeep := rng k % (r.2 - r.1 + 1) + r.1
  let shuffled := shuffleArray rng allPositions (k + 1)
  let result := pokeLoop shuffled.1 (copyGrid board) 0 (81 - numbersToKeep)
  (result.1, result.2, shuffled.2)

/-- `pokeHoles(board, difficulty)`: just the puzzle. -/
def pokeHoles (board : Grid) (difficulty : String) (rng : Rng) (k : Nat) : Grid :=
  (pokeHolesRun board difficulty rng k).1

/-- The `{puzzle, solution, difficulty}` record `generate` returns. -/
structure GenerationResult where
  puzzle : Grid
  solution : Grid
  difficulty : String

/-- `generate` from the source: a full board from the seeded solver, then
holes poked into a copy of it; `none` when the rejection sampling of
`fillBox` exhausts its fuel (the source would not return at all). -/
def generate (fuel : Nat) (rng : Rng) (difficulty : String) :
    Option GenerationResult :=
  (generateFullBoard fuel rng 0).map fun solk =>
    { puzzle := pokeHoles solk.1 difficulty rng solk.2
      solution := solk.1
      difficulty := difficulty }

/-- `toFlatArray` from the source: `board.flat()`, row-major. -/
def toFlatArray (board : Grid) : List Nat := board.flatten

/-- `fromFlatArray` from the source: the nine slices
`flat.slice(i*9, (i+1)*9)` in order, with no validation of the input. -/
def fromFlatArray (flat : List Nat) : Grid :=
  (List.range 9).map fun i => (flat.drop (i * 9)).take 9

/-- The fully solved grid the deterministic solver produces from the empty
board (the lexicographically least solved grid); used as a witness input. -/
def solvedGridA : Grid :=
  [[1, 2, 3, 4, 5, 6, 7, 8, 9],
   [4, 5, 6, 7, 8, 9, 1, 2, 3],
   [7, 8, 9, 1, 2, 3, 4, 5, 6],
   [2, 1, 4, 3, 6, 5, 8, 9, 7],
   [3, 6, 5, 8, 9, 7, 2, 1, 4],
   [8, 9, 7, 2, 1, 4, 3, 6, 5],
   [5, 3, 1, 6, 4, 2, 9, 7, 8],
   [6, 4, 2, 9, 7, 8, 5, 3, 1],
   [9, 7, 8, 5, 3, 1, 6, 4, 2]]

set_option maxRecDepth 100000 in
set_option maxHeartbeats 16000000 in
/-- The capped search on the completely empty board: it finds a first
completion, backtracks into a second one, and the cap then aborts the whole
recursion with a count of exactly 2.  (Kept directly after the definitions:
the statement is settled by kernel evaluation of the search.) -/
theorem countSolutions_empty_eval : countSolutions createEmptyBoard = 2 := by
  decide

/-- Shape of the boards the engine manipulates: 9 rows of 9 cells. -/
def gridShape (b : Grid) : Bool :=
  b.length == 9 && b.all fun row => row.length == 9

/-- A complete board: correctly shaped with no empty (zero) cell. -/
def isComplete (b : Grid) : Bool :=
  gridShape b && b.all fun row => row.all fun v => v != 0

/-- A complete board in which every digit occurs in every row, every column
and every box — the solved grids the generator hands to the excavator. -/
def isSolvedGrid (b : Grid) : Bool :=
  isComplete b &&
  ((List.range 9).all fun r => digits.all fun v =>
    (List.range 9).any fun c => getCell b r c == v) &&
  ((List.range 9).all fun c => digits.all fun v =>
    (List.range 9).any fun r => getCell b r c == v) &&
  ((List.range 3).all fun bi => (List.range 3).all fun bj => digits.all fun v =>
    (List.range 3).any fun i => (List.range 3).any fun j =>
      getCell b (3 * bi + i) (3 * bj + j) == v)

/-- Count of non-zero cells (retained clues) of a board. -/
def nonZeros (b : Grid) : Nat :=
  (b.map fun row => row.countP fun v => v != 0).sum

section ListLemmas

variable {α : Type _}

theorem getD_set_self (l : List α) (i : Nat) (v d : α) (h : i < l.length) :
    (l.set i v).getD i d = v := by
  induction l generalizing i with
  | nil => simp at h
  | cons x t ih =>
    cases i with
    | zero => rfl
    | succ n => simpa using ih n (by simpa using h)

theorem getD_set_ne (l : List α) (i j : Nat) (v d : α) (h : i ≠ j) :
    (l.set i v).getD j d = l.getD j d := by
  induction l generalizing i j with
  | nil => simp [List.set]
  | cons x t ih =>
    cases i with
    | zero =>
      cases j with
      | zero => exact absurd rfl h
      | succ m => rfl
    | succ n =>
      cases j with
      | zero => rfl
      | succ m => simpa using ih n m (fun hnm => h (by omega))

theorem set_getD_self (l : List α) (i : Nat) (d : α) :
    l.set i (l.getD i d) = l := by
  induction l generalizing i with
  | nil => rfl
  | cons x t ih =>
    cases i with
    | zero => rfl
    | succ n => simpa using ih n

theorem set_set_self (l : List α) (i : Nat) (v w : α) :
    (l.set i v).set i w = l.set i w := by
  induction l generalizing i with
  | nil => rfl
  | cons x t ih =>
    cases i with
    | zero => rfl
    | succ n => simp only [List.set_cons_succ, List.cons.injEq, true_and]; exact ih n

end ListLemmas

theorem setCell_getCell_self (b : Grid) (r c : Nat) :
    setCell b r c (getCell b r c) = b := by
  unfold setCell getCell
  rw [set_getD_self, set_getD_self]

theorem setCell_setCell (b : Grid) (r c v w : Nat) :
    setCell (setCell b r c v) r c w = setCell b r c w := by
  unfold setCell
  by_cases h : r < b.length
  · rw [getD_set_self _ _ _ _ h, set_set_self, set_set_self]
  · have hb : b.set r ((b.getD r []).set c v) = b := by
      apply List.set_eq_of_length_le; omega
    rw [hb]

theorem getCell_setCell_ne (b : Grid) (r c r' c' v : Nat)
    (h : r ≠ r' ∨ c ≠ c') : getCell (setCell b r c v) r' c' = getCell b r' c' := by
  unfold setCell getCell
  rcases h with h | h
  · rw [getD_set_ne _ _ _ _ _ h]
  · by_cases hr : r' = r
    · subst hr
      by_cases hlen : r' < b.length
      · rw [getD_set_self _ _ _ _ hlen, getD_set_ne _ _ _ _ _ h]
      · have hb : b.set r' ((b.getD r' []).set c v) = b := by
          apply List.set_eq_of_length_le; omega
        rw [hb]
    · rw [getD_set_ne _ _ _ _ _ (fun hh => hr hh.symm)]

theorem setCell_restore (b : Grid) (r c v : Nat) (h : getCell b r c = 0) :
    setCell (setCell b r c v) r c 0 = b := by
  rw [setCell_setCell, ← h, setCell_getCell_self]

/-- The shape is preserved by any cell write. -/
theorem gridShape_setCell (b : Grid) (r c v : Nat)
    (hb : gridShape b = true) : gridShape (setCell b r c v) = true := by
  unfold gridShape at hb ⊢
  simp only [Bool.and_eq_true, beq_iff_eq, List.all_eq_true] at hb ⊢
  obtain ⟨hlen, hrows⟩ := hb
  constructor
  · simpa [setCell] using hlen
  · intro row hrow
    unfold setCell at hrow
    by_cases hr : r < b.length
    · rcases List.mem_or_eq_of_mem_set hrow with h | h
      · exact hrows row h
      · subst h
        have : b.getD r [] ∈ b := by
          rw [List.getD_eq_getElem b [] hr]
          exact List.getElem_mem hr
        simpa using hrows _ this
    · rw [List.set_eq_of_length_le (by omega)] at hrow
      exact hrows row hrow

theorem shape_row_length (b : Grid) (hb : gridShape b = true) (r : Nat) (hr : r < 9) :
    (b.getD r []).length = 9 := by
  unfold gridShape at hb
  simp only [Bool.and_eq_true, beq_iff_eq, List.all_eq_true] at hb
  obtain ⟨hlen, hrows⟩ := hb
  have hrl : r < b.length := by omega
  rw [List.getD_eq_getElem b [] hrl]
  exact hrows _ (List.getElem_mem hrl)

theorem complete_shape (b : Grid) (hb : isComplete b = true) : gridShape b = true := by
  unfold isComplete at hb
  exact (Bool.and_eq_true _ _ |>.mp hb).1

theorem complete_getCell_ne (b : Grid) (hb : isComplete b = true)
    (r c : Nat) (hr : r < 9) (hc : c < 9) : getCell b r c ≠ 0 := by
  unfold isComplete at hb
  simp only [Bool.and_eq_true, List.all_eq_true] at hb
  obtain ⟨hshape, hnz⟩ := hb
  have hlen : b.length = 9 := by
    unfold gridShape at hshape
    simp only [Bool.and_eq_true, beq_iff_eq, List.all_eq_true] at hshape
    exact hshape.1
  have hrl : r < b.length := by omega
  have hrow : b.getD r [] ∈ b := by
    rw [List.getD_eq_getElem b [] hrl]
    exact List.getElem_mem hrl
  have hcl : c < (b.getD r []).length :=
    (shape_row_length b (complete_shape b (by
      unfold isComplete
      simp only [Bool.and_eq_true, List.all_eq_true]
      exact ⟨hshape, hnz⟩)) r hr) ▸ hc
  have hv : (b.getD r []).getD c 0 ∈ b.getD r [] := by
    rw [List.getD_eq_getElem _ 0 hcl]
    exact List.getElem_mem hcl
  have := hnz _ hrow _ hv
  simpa [getCell] using this

theorem allPositions_inRange : ∀ p ∈ allPositions, p.1 < 9 ∧ p.2 < 9 := by decide

theorem findEmptyIn_eq_none (b : Grid) (ps : List (Nat × Nat))
    (h : ∀ p ∈ ps, getCell b p.1 p.2 ≠ 0) : findEmptyIn b ps = none := by
  induction ps with
  | nil => rfl
  | cons p ps ih =>
    unfold findEmptyIn
    rw [if_neg (by simpa using h p (List.mem_cons_self p ps))]
    exact ih fun q hq => h q (List.mem_cons_of_mem _ hq)

theorem findEmptyIn_zero (b : Grid) (ps : List (Nat × Nat)) (p : Nat × Nat)
    (h : findEmptyIn b ps = some p) : getCell b p.1 p.2 = 0 := by
  induction ps with
  | nil => exact absurd h (by simp [findEmptyIn])
  | cons q ps ih =>
    unfold findEmptyIn at h
    by_cases hq : getCell b q.1 q.2 = 0
    · rw [if_pos (by simpa using hq)] at h
      cases h
      exact hq
    · rw [if_neg (by simpa using hq)] at h
      exact ih h

theorem findEmpty_complete (b : Grid) (hb : isComplete b = true) :
    findEmpty b = none := by
  unfold findEmpty
  apply findEmptyIn_eq_none
  intro p hp
  obtain ⟨h1, h2⟩ := allPositions_inRange p hp
  exact complete_getCell_ne b hb p.1 p.2 h1 h2

/-- On a board with no empty cell the counting recursion takes the base
branch once: the count is exactly 1. -/
theorem countSolutions_complete (b : Grid) (hb : isComplete b = true) :
    countSolutions b = 1 := by
  unfold countSolutions countSolutionsRun
  rw [show (82 : Nat) = 81 + 1 from rfl]
  unfold solveCount
  rw [findEmpty_complete b hb]

/-- The running count never exceeds 2: the digit loop goes dormant as soon as
the count passes 1, and only the no-empty-cell branch increments. -/
theorem solveCount_le (fuel : Nat) :
    ∀ b count, count ≤ 1 → (solveCount fuel b count).2 ≤ 2 := by
  induction fuel with
  | zero => intro b count h; exact Nat.le_trans h (by omega)
  | succ fuel ih =>
    intro b count h
    unfold solveCount
    cases hfe : findEmpty b with
    | none => simp only; omega
    | some rc =>
      obtain ⟨row, col⟩ := rc
      have hfold : ∀ (ns : List Nat) (acc : Grid × Nat), acc.2 ≤ 2 →
          (ns.foldl (countStep (solveCount fuel) row col) acc).2 ≤ 2 := by
        intro ns
        induction ns with
        | nil => intro acc hacc; exact hacc
        | cons n ns ihn =>
          intro acc hacc
          apply ihn
          unfold countStep
          by_cases h1 : acc.2 > 1
          · rw [if_pos h1]; exact hacc
          · rw [if_neg h1]
            by_cases h2 : isValid acc.1 row col n = true
            · rw [if_pos h2]
              exact ih _ _ (by omega)
            · rw [if_neg h2]; exact hacc
      exact hfold digits (b, count) (by omega)

/-- Every trial placement of the counting search is undone: the board the
recursion hands back is the board it was given. -/
theorem solveCount_board (fuel : Nat) :
    ∀ b count, (solveCount fuel b count).1 = b := by
  induction fuel with
  | zero => intro b count; rfl
  | succ fuel ih =>
    intro b count
    unfold solveCount
    cases hfe : findEmpty b with
    | none => rfl
    | some rc =>
      obtain ⟨row, col⟩ := rc
      have h0 : getCell b row col = 0 := findEmptyIn_zero b allPositions (row, col) hfe
      have hfold : ∀ (ns : List Nat) (acc : Grid × Nat), acc.1 = b →
          (ns.foldl (countStep (solveCount fuel) row col) acc).1 = b := by
        intro ns
        induction ns with
        | nil => intro acc hacc; exact hacc
        | cons n ns ihn =>
          intro acc hacc
          apply ihn
          unfold countStep
          by_cases h1 : acc.2 > 1
          · rw [if_pos h1]; exact hacc
          · rw [if_neg h1]
            by_cases h2 : isValid acc.1 row col n = true
            · rw [if_pos h2]
              simp only
              rw [ih, hacc, setCell_restore _ _ _ _ h0]
            · rw [if_neg h2]; exact hacc
      exact hfold digits (b, count) rfl

/-- The deep copy of a board is the same value. -/
theorem copyGrid_eq (b : Grid) : copyGrid b = b := by
  unfold copyGrid
  simp

/-- Excavation preserves a solution count of exactly 1: a removal is kept
only when the count stays 1, and otherwise the backup restores the previous
puzzle verbatim. -/
theorem pokeLoop_unique : ∀ ps (puzzle : Grid) (hp htp : Nat),
    countSolutions puzzle = 1 → countSolutions (pokeLoop ps puzzle hp htp).1 = 1 := by
  intro ps
  induction ps with
  | nil => intro puzzle hp htp h; exact h
  | cons pos rest ih =>
    intro puzzle hp htp h
    unfold pokeLoop
    by_cases hbreak : hp ≥ htp
    · rw [if_pos hbreak]; exact h
    · rw [if_neg hbreak]
      simp only
      by_cases hcnt : countSolutions (copyGrid (setCell puzzle pos.1 pos.2 0)) = 1
      · rw [if_pos (by simpa using hcnt)]
        apply ih
        rwa [copyGrid_eq] at hcnt
      · rw [if_neg (by simpa using hcnt)]
        apply ih
        rw [setCell_setCell, setCell_getCell_self]
        exact h

/-- Conditional uniqueness: starting from any complete board, the puzzle
`pokeHoles` carves keeps exactly one completion, for every difficulty tag and
every behaviour of the random stream. -/
theorem pokeHoles_unique_of_complete (board : Grid) (d : String) (rng : Rng)
    (k : Nat) (hb : isComplete board = true) :
    countSolutions (pokeHoles board d rng k) = 1 := by
  unfold pokeHoles pokeHolesRun
  simp only
  apply pokeLoop_unique
  rw [copyGrid_eq]
  exact countSolutions_complete board hb

theorem getCell_setCell_zero (b : Grid) (r c : Nat) :
    getCell (setCell b r c 0) r c = 0 := by
  unfold getCell setCell
  by_cases hr : r < b.length
  · rw [getD_set_self _ _ _ _ hr]
    by_cases hc : c < (b.getD r []).length
    · rw [getD_set_self _ _ _ _ hc]
    · rw [List.set_eq_of_length_le (by omega)]
      exact List.getD_eq_default _ _ (by omega)
  · have hb : b.getD r [] = [] := List.getD_eq_default _ _ (by omega)
    rw [@List.set_eq_of_length_le _ b r (by omega) ((b.getD r []).set c 0), hb]
    rfl

/-- Bool check over the 81 cells: every non-zero cell of the puzzle holds the
same digit as the solution. -/
def agreesOnClues (puzzle solution : Grid) : Bool :=
  allPositions.all fun p =>
    getCell puzzle p.1 p.2 == 0 ||
    getCell puzzle p.1 p.2 == getCell solution p.1 p.2

/-- Excavation only zeroes cells: throughout the loop every cell of the
in-progress puzzle holds either the starting board's digit or 0. -/
theorem pokeLoop_agrees : ∀ ps (puzzle board : Grid) (hp htp : Nat),
    (∀ r c, getCell puzzle r c = getCell board r c ∨ getCell puzzle r c = 0) →
    ∀ r c, getCell (pokeLoop ps puzzle hp htp).1 r c = getCell board r c ∨
      getCell (pokeLoop ps puzzle hp htp).1 r c = 0 := by
  intro ps
  induction ps with
  | nil => intro puzzle board hp htp h; exact h
  | cons pos rest ih =>
    intro puzzle board hp htp h
    unfold pokeLoop
    by_cases hbreak : hp ≥ htp
    · rw [if_pos hbreak]; exact h
    · rw [if_neg hbreak]
      simp only
      by_cases hcnt : countSolutions (copyGrid (setCell puzzle pos.1 pos.2 0)) = 1
      · rw [if_pos (by simpa using hcnt)]
        apply ih
        intro r c
        by_cases hpc : pos.1 = r ∧ pos.2 = c
        · rw [← hpc.1, ← hpc.2]
          right
          exact getCell_setCell_zero puzzle pos.1 pos.2
        · rw [getCell_setCell_ne puzzle pos.1 pos.2 r c 0 (by tauto)]
          exact h r c
      · rw [if_neg (by simpa using hcnt)]
        apply ih
        rw [setCell_setCell, setCell_getCell_self]
        exact h

/-- C3: for every behaviour of the random stream and every difficulty tag,
each non-zero cell of the puzzle `generate` returns equals the corresponding
cell of the returned solution — excavation only ever zeroes cells. -/
theorem generate_clues_agree (fuel : Nat) (rng : Rng) (difficulty : String) :
    Option.all (fun res => agreesOnClues res.puzzle res.solution)
      (generate fuel rng difficulty) = true := by
  unfold generate
  cases hgen : generateFullBoard fuel rng 0 with
  | none => rfl
  | some solk =>
    rw [Option.map_some', Option.all_some]
    unfold agreesOnClues
    rw [List.all_eq_true]
    intro p hp
    have h : ∀ r c,
        getCell (pokeHoles solk.1 difficulty rng solk.2) r c = getCell solk.1 r c ∨
        getCell (pokeHoles solk.1 difficulty rng solk.2) r c = 0 := by
      unfold pokeHoles pokeHolesRun
      simp only
      rw [copyGrid_eq]
      exact pokeLoop_agrees _ solk.1 solk.1 0 _ (fun r c => Or.inl rfl)
    rcases h p.1 p.2 with hsame | hzero
    · simp [hsame]
    · simp [hzero]

/-- C10: the solution field of a generated record is exactly the grid
`generateFullBoard` produced, untouched by excavation, and the puzzle field
is exactly what `pokeHoles` carved out of (a copy of) that grid. -/
theorem generate_solution_untouched (fuel : Nat) (rng : Rng) (difficulty : String) :
    (generate fuel rng difficulty).map (fun res => res.solution) =
      (generateFullBoard fuel rng 0).map (fun bk => bk.1) ∧
    (generate fuel rng difficulty).map (fun res => res.puzzle) =
      (generateFullBoard fuel rng 0).map
        (fun bk => pokeHoles bk.1 difficulty rng bk.2) := by
  unfold generate
  cases hgen : generateFullBoard fuel rng 0 with
  | none => exact ⟨rfl, rfl⟩
  | some solk => exact ⟨rfl, by simp only [Option.map_some']⟩

theorem drop_flatten_of_rows :
    ∀ (k : Nat) (g : Grid), (∀ row ∈ g, row.length = 9) →
      g.flatten.drop (k * 9) = (g.drop k).flatten := by
  intro k
  induction k with
  | zero => intro g _; rfl
  | succ k ih =>
    intro g hg
    cases g with
    | nil => simp
    | cons row t =>
      have hlen : row.length = 9 := hg row (List.mem_cons_self row t)
      have : (k + 1) * 9 = row.length + k * 9 := by omega
      rw [this, List.flatten_cons, List.drop_append, ih t
        (fun r hr => hg r (List.mem_cons_of_mem _ hr))]
      simp

/-- C5: serializing a well-formed 9×9 grid to the row-major flat array and
deserializing it again reproduces the grid cell for cell. -/
theorem fromFlatArray_toFlatArray (g : Grid) (hlen : g.length = 9)
    (hrows : ∀ row ∈ g, row.length = 9)
    (_hvals : ∀ row ∈ g, ∀ v ∈ row, v ≤ 9) :
    fromFlatArray (toFlatArray g) = g := by
  apply List.ext_get
  · simp [fromFlatArray, hlen]
  · intro n h1 h2
    have hn : n < 9 := by simpa [fromFlatArray] using h1
    simp only [fromFlatArray, toFlatArray, List.get_eq_getElem, List.getElem_map,
      List.getElem_range]
    rw [drop_flatten_of_rows n g hrows,
      List.drop_eq_getElem_cons (by omega : n < g.length), List.flatten_cons]
    have hrl : g[n].length = 9 := hrows _ (List.getElem_mem (by omega))
    have htl := List.take_left g[n] ((List.drop (n + 1) g).flatten)
    rw [hrl] at htl
    exact htl

/-- C5 witness: the round-trip law instantiated at a concrete well-formed
solved grid. -/
theorem fromFlatArray_toFlatArray_witness :
    (solvedGridA.length = 9 ∧ (∀ row ∈ solvedGridA, row.length = 9) ∧
      (∀ row ∈ solvedGridA, ∀ v ∈ row, v ≤ 9)) ∧
    fromFlatArray (toFlatArray solvedGridA) = solvedGridA :=
  ⟨⟨by decide, by decide, by decide⟩,
    fromFlatArray_toFlatArray solvedGridA (by decide) (by decide) (by decide)⟩

theorem flatten_fromFlatArray_aux :
    ∀ (n : Nat) (l : List Nat),
      ((List.range n).map fun i => (l.drop (i * 9)).take 9).flatten = l.take (n * 9) := by
  intro n
  induction n with
  | zero => intro l; rfl
  | succ n ih =>
    intro l
    rw [List.range_succ, List.map_append, List.flatten_append, ih]
    simp only [List.map_cons, List.map_nil, List.flatten_cons, List.flatten_nil,
      List.append_nil]
    rw [show (n + 1) * 9 = n * 9 + 9 by ring, List.take_add]

/-- C8 amended: `fromFlatArray` performs no validation at all — on every
input, malformed or not, it totally returns a 9-row grid whose row-major
flattening is the first 81 entries of the input. -/
theorem fromFlatArray_no_validation (flat : List Nat) :
    (fromFlatArray flat).length = 9 ∧
    (fromFlatArray flat).flatten = flat.take 81 := by
  refine ⟨by simp [fromFlatArray], ?_⟩
  unfold fromFlatArray
  exact flatten_fromFlatArray_aux 9 flat

/-- C8 counterexample: a malformed serialized record — 80 entries, every one
of them the out-of-range value 10 — is not rejected: `fromFlatArray` silently
returns a grid-shaped value built from it. -/
theorem fromFlatArray_malformed_cex :
    (List.replicate 80 (10 : Nat)).length ≠ 81 ∧
    (∀ v ∈ List.replicate 80 (10 : Nat), ¬v ≤ 9) ∧
    fromFlatArray (List.replicate 80 10) =
      [List.replicate 9 10, List.replicate 9 10, List.replicate 9 10,
       List.replicate 9 10, List.replicate 9 10, List.replicate 9 10,
       List.replicate 9 10, List.replicate 9 10, List.replicate 8 10] := by
  refine ⟨by decide, by decide, by decide⟩

/-- Modelled from the claim's words, for comparison with the code's
`isValid`: the value already appears ELSEWHERE — at a cell other than
`(row, col)` itself — in the row, the column, or the containing box. -/
def specOccursElsewhere (board : Grid) (row col num : Nat) : Bool :=
  ((List.range 9).any fun x => x != col && getCell board row x == num) ||
  ((List.range 9).any fun x => x != row && getCell board x col == num) ||
  ((List.range 3).any fun i => (List.range 3).any fun j =>
    (!(row / 3 * 3 + i == row && col / 3 * 3 + j == col)) &&
    getCell board (row / 3 * 3 + i) (col / 3 * 3 + j) == num)

/-- A board holding a single 5 in its top-left corner. -/
def cornerFiveGrid : Grid := setCell createEmptyBoard 0 0 5

/-- C4 counterexample: at `(0, 0)` of `cornerFiveGrid` the value 5 appears
nowhere other than at `(0, 0)` itself, so the claim predicts `isValid` returns
true there; the code scans the whole row, column and box — including the cell
itself — and returns false. -/
theorem isValid_self_cell_cex :
    getCell cornerFiveGrid 0 0 = 5 ∧
    specOccursElsewhere cornerFiveGrid 0 0 5 = false ∧
    isValid cornerFiveGrid 0 0 5 = false := by
  refine ⟨by decide, by decide, by decide⟩

/-- C4 amended: for in-range inputs, `isValid` returns false exactly when the
value occurs anywhere in the row, the column, or the containing 3×3 box —
including at the cell `(row, col)` itself — and true otherwise. -/
theorem isValid_false_iff (board : Grid) (row col num : Nat)
    (_hrow : row < 9) (_hcol : col < 9) (_hnum1 : 1 ≤ num) (_hnum9 : num ≤ 9) :
    isValid board row col num = false ↔
      ((∃ x, x < 9 ∧ getCell board row x = num) ∨
       (∃ x, x < 9 ∧ getCell board x col = num) ∨
       (∃ i, i < 3 ∧ ∃ j, j < 3 ∧
         getCell board (row / 3 * 3 + i) (col / 3 * 3 + j) = num)) := by
  unfold isValid
  simp only [Bool.and_eq_false_iff, List.all_eq_false, List.mem_range,
    Bool.not_eq_true, bne_eq_false_iff_eq]
  exact or_assoc

/-- A board matching the spec's concrete scenario 2: row 0 empty except for
a 5 at column 4. -/
def rowFiveGrid : Grid := setCell createEmptyBoard 0 4 5

/-- C4 witness: the amended equivalence instantiated at the spec's concrete
scenario — a 5 at `(0, 4)` makes `isValid` reject a 5 at `(0, 7)`. -/
theorem isValid_false_iff_witness :
    (0 < 9 ∧ 7 < 9 ∧ 1 ≤ 5 ∧ 5 ≤ 9) ∧
    (isValid rowFiveGrid 0 7 5 = false ↔
      ((∃ x, x < 9 ∧ getCell rowFiveGrid 0 x = 5) ∨
       (∃ x, x < 9 ∧ getCell rowFiveGrid x 7 = 5) ∨
       (∃ i, i < 3 ∧ ∃ j, j < 3 ∧
         getCell rowFiveGrid (0 / 3 * 3 + i) (7 / 3 * 3 + j) = 5))) :=
  ⟨by decide, isValid_false_iff rowFiveGrid 0 7 5 (by decide) (by decide)
    (by decide) (by decide)⟩

/-- C9: `countSolutions` hands back the very board it was given — every trial
placement of the counting search, including those on the early-exit path, is
undone before returning. -/
theorem countSolutions_preserves_board (b : Grid) : (countSolutionsRun b).1 = b :=
  solveCount_board 82 b 0

/-- C6: `countSolutions` on the completely empty board stops at the cap and
returns exactly 2, and on no input whatsoever does it return more than 2. -/
theorem countSolutions_empty_and_capped :
    countSolutions createEmptyBoard = 2 ∧ ∀ b : Grid, countSolutions b ≤ 2 :=
  ⟨countSolutions_empty_eval, fun b => solveCount_le 82 b 0 (by omega)⟩

theorem shape_length (b : Grid) (hb : gridShape b = true) : b.length = 9 := by
  unfold gridShape at hb
  simp only [Bool.and_eq_true, beq_iff_eq, List.all_eq_true] at hb
  exact hb.1

theorem getD_cons_set_perm {α : Type _} (d : α) :
    ∀ (t : List α) (m : Nat) (x : α), m < t.length →
      List.Perm (t.getD m d :: t.set m x) (x :: t) := by
  intro t
  induction t with
  | nil => intro m x hm; simp at hm
  | cons y s ih =>
    intro m x hm
    cases m with
    | zero =>
      simp only [List.getD_cons_zero, List.set_cons_zero]
      exact List.Perm.swap x y s
    | succ k =>
      simp only [List.getD_cons_succ, List.set_cons_succ]
      have h1 := List.Perm.swap y (s.getD k d) (s.set k x)
      have h2 := (ih k x (by simpa using hm)).cons y
      exact (h1.trans h2).trans (List.Perm.swap x y s)

theorem swapPositions_perm :
    ∀ (l : List (Nat × Nat)) (i j : Nat), i < l.length → j < l.length →
      List.Perm (swapPositions l i j) l := by
  intro l
  induction l with
  | nil => intro i j hi _; simp at hi
  | cons x t ih =>
    intro i j hi hj
    cases i with
    | zero =>
      cases j with
      | zero =>
        simp only [swapPositions, List.getD_cons_zero, List.set_cons_zero]
        exact List.Perm.refl _
      | succ m =>
        simp only [swapPositions, List.getD_cons_zero, List.getD_cons_succ,
          List.set_cons_zero, List.set_cons_succ]
        exact getD_cons_set_perm (0, 0) t m x (by simpa using hj)
    | succ n =>
      cases j with
      | zero =>
        simp only [swapPositions, List.getD_cons_zero, List.getD_cons_succ,
          List.set_cons_zero, List.set_cons_succ]
        exact getD_cons_set_perm (0, 0) t n x (by simpa using hi)
      | succ m =>
        simp only [swapPositions, List.getD_cons_succ, List.set_cons_succ]
        exact (ih n m (by simpa using hi) (by simpa using hj)).cons x

theorem shuffleGo_perm (rng : Rng) :
    ∀ (i : Nat) (arr : List (Nat × Nat)) (k : Nat), i < arr.length →
      List.Perm (shuffleGo rng i arr k).1 arr := by
  intro i
  induction i with
  | zero => intro arr k _; exact List.Perm.refl arr
  | succ n ih =>
    intro arr k h
    unfold shuffleGo
    have hlen : (swapPositions arr (n + 1) (rng k % (n + 2))).length = arr.length := by
      unfold swapPositions
      simp [List.length_set]
    have hj : rng k % (n + 2) < arr.length := by
      have := Nat.mod_lt (rng k) (show 0 < n + 2 by omega)
      omega
    have hswap := swapPositions_perm arr (n + 1) (rng k % (n + 2)) h hj
    exact (ih _ (k + 1) (by omega)).trans hswap

theorem shuffleArray_allPositions_perm (rng : Rng) (k : Nat) :
    List.Perm (shuffleArray rng allPositions k).1 allPositions := by
  unfold shuffleArray
  exact shuffleGo_perm rng _ allPositions k (by decide)

theorem allPositions_nodup : allPositions.Nodup := by decide

theorem countP_set_zero (row : List Nat) :
    ∀ c, c < row.length → row.getD c 0 ≠ 0 →
      (row.set c 0).countP (fun v => v != 0) + 1 = row.countP (fun v => v != 0) := by
  induction row with
  | nil => intro c hc _; simp at hc
  | cons x t ih =>
    intro c hc hnz
    cases c with
    | zero =>
      simp only [List.getD_cons_zero] at hnz
      simp only [List.set_cons_zero, List.countP_cons]
      have hx : (x != 0) = true := by simpa using hnz
      simp [hx]
    | succ k =>
      simp only [List.getD_cons_succ] at hnz
      simp only [List.set_cons_succ, List.countP_cons]
      have := ih k (by simpa using hc) hnz
      omega

theorem nonZeros_setCell_zero (b : Grid) :
    ∀ (r c : Nat), r < b.length → c < (b.getD r []).length →
      getCell b r c ≠ 0 → nonZeros (setCell b r c 0) + 1 = nonZeros b := by
  induction b with
  | nil => intro r c hr _ _; simp at hr
  | cons row rest ih =>
    intro r c hr hc hnz
    cases r with
    | zero =>
      unfold getCell at hnz
      simp only [List.getD_cons_zero] at hnz hc
      unfold setCell nonZeros
      simp only [List.getD_cons_zero, List.set_cons_zero, List.map_cons, List.sum_cons]
      have := countP_set_zero row c hc hnz
      omega
    | succ n =>
      unfold getCell at hnz
      simp only [List.getD_cons_succ] at hnz hc
      unfold setCell nonZeros
      simp only [List.getD_cons_succ, List.set_cons_succ, List.map_cons, List.sum_cons]
      have := ih n c (by simpa using hr) hc hnz
      unfold setCell nonZeros at this
      omega

theorem nonZeros_complete (b : Grid) (hb : isComplete b = true) : nonZeros b = 81 := by
  unfold isComplete gridShape at hb
  simp only [Bool.and_eq_true, beq_iff_eq, List.all_eq_true] at hb
  obtain ⟨⟨hlen, hrows⟩, hnz⟩ := hb
  unfold nonZeros
  have hmap : b.map (fun row => row.countP fun v => v != 0) = List.replicate 9 9 := by
    rw [List.eq_replicate_iff]
    constructor
    · simpa using hlen
    · intro x hx
      obtain ⟨row, hrow, hcount⟩ := List.mem_map.mp hx
      have h9 := hrows row hrow
      have hfull : row.countP (fun v => v != 0) = row.length :=
        List.countP_eq_length.mpr fun v hv => hnz row hrow v hv
      omega
  rw [hmap]
  decide

/-- The counting invariant of the excavation loop: as long as every pending
coordinate is distinct, in range, and not yet excavated, the number of
non-zero cells plus the number of holes poked stays 81, and the holes poked
never exceed the target. -/
theorem pokeLoop_count :
    ∀ (ps : List (Nat × Nat)) (puzzle : Grid) (hp htp : Nat),
      gridShape puzzle = true → ps.Nodup →
      (∀ p ∈ ps, p.1 < 9 ∧ p.2 < 9 ∧ getCell puzzle p.1 p.2 ≠ 0) →
      nonZeros puzzle + hp = 81 → hp ≤ htp →
      nonZeros (pokeLoop ps puzzle hp htp).1 + (pokeLoop ps puzzle hp htp).2 = 81 ∧
        (pokeLoop ps puzzle hp htp).2 ≤ htp := by
  intro ps
  induction ps with
  | nil => intro puzzle hp htp _ _ _ hsum hle; exact ⟨hsum, hle⟩
  | cons pos rest ih =>
    intro puzzle hp htp hshape hnodup hcells hsum hle
    unfold pokeLoop
    by_cases hbreak : hp ≥ htp
    · rw [if_pos hbreak]; exact ⟨hsum, hle⟩
    · rw [if_neg hbreak]
      simp only
      obtain ⟨hp1, hp2, hpnz⟩ := hcells pos (List.mem_cons_self _ _)
      have hplen : puzzle.length = 9 := shape_length puzzle hshape
      have hrlen : (puzzle.getD pos.1 []).length = 9 :=
        shape_row_length puzzle hshape pos.1 hp1
      have hdec := nonZeros_setCell_zero puzzle pos.1 pos.2 (by omega) (by omega) hpnz
      have hshape' : gridShape (setCell puzzle pos.1 pos.2 0) = true :=
        gridShape_setCell puzzle pos.1 pos.2 0 hshape
      have hhead : pos ∉ rest := (List.nodup_cons.mp hnodup).1
      by_cases hcnt : countSolutions (copyGrid (setCell puzzle pos.1 pos.2 0)) = 1
      · rw [if_pos (by simpa using hcnt)]
        apply ih _ _ _ hshape' (List.Nodup.of_cons hnodup)
        · intro q hq
          obtain ⟨hq1, hq2, hqnz⟩ := hcells q (List.mem_cons_of_mem _ hq)
          refine ⟨hq1, hq2, ?_⟩
          have hne : pos.1 ≠ q.1 ∨ pos.2 ≠ q.2 := by
            by_cases h1 : pos.1 = q.1
            · right
              intro h2
              exact hhead (by
                have : pos = q := Prod.ext h1 h2
                rw [this]
                exact hq)
            · left; exact h1
          rw [getCell_setCell_ne puzzle pos.1 pos.2 q.1 q.2 0 hne]
          exact hqnz
        · omega
        · omega
      · rw [if_neg (by simpa using hcnt)]
        rw [setCell_setCell, setCell_getCell_self]
        exact ih _ _ _ hshape (List.Nodup.of_cons hnodup)
          (fun q hq => hcells q (List.mem_cons_of_mem _ hq)) hsum hle

theorem tierRange_bounds (d : String) :
    (tierRange d).1 ≤ (tierRange d).2 ∧ (tierRange d).2 ≤ 40 := by
  unfold tierRange
  split <;> exact ⟨by omega, by omega⟩

/-- C7: from a complete valid board, the retained clue count of the puzzle
lies in the difficulty tier's inclusive range, except that it may exceed the
upper bound, and then only when the loop ran out of candidate cells before
poking the target number of holes. -/
theorem pokeHoles_clue_count (board : Grid) (difficulty : String) (rng : Rng)
    (k : Nat) (hb : isSolvedGrid board = true) :
    (tierRange difficulty).1 ≤ nonZeros (pokeHolesRun board difficulty rng k).1 ∧
    (nonZeros (pokeHolesRun board difficulty rng k).1 ≤ (tierRange difficulty).2 ∨
      ((tierRange difficulty).2 < nonZeros (pokeHolesRun board difficulty rng k).1 ∧
        (pokeHolesRun board difficulty rng k).2.1 <
          81 - (rng k % ((tierRange difficulty).2 - (tierRange difficulty).1 + 1) +
            (tierRange difficulty).1))) := by
  have hcomplete : isComplete board = true := by
    unfold isSolvedGrid at hb
    simp only [Bool.and_eq_true] at hb
    exact hb.1.1.1
  have hperm := shuffleArray_allPositions_perm rng (k + 1)
  have hnodup : (shuffleArray rng allPositions (k + 1)).1.Nodup :=
    hperm.symm.nodup allPositions_nodup
  have hcells : ∀ p ∈ (shuffleArray rng allPositions (k + 1)).1,
      p.1 < 9 ∧ p.2 < 9 ∧ getCell (copyGrid board) p.1 p.2 ≠ 0 := by
    intro p hp
    obtain ⟨h1, h2⟩ := allPositions_inRange p (hperm.subset hp)
    rw [copyGrid_eq]
    exact ⟨h1, h2, complete_getCell_ne board hcomplete p.1 p.2 h1 h2⟩
  have hshape : gridShape (copyGrid board) = true := by
    rw [copyGrid_eq]
    exact complete_shape board hcomplete
  have hsum : nonZeros (copyGrid board) + 0 = 81 := by
    rw [copyGrid_eq]
    simpa using nonZeros_complete board hcomplete
  obtain ⟨hmn, hmx40⟩ := tierRange_bounds difficulty
  have hmod : rng k % ((tierRange difficulty).2 - (tierRange difficulty).1 + 1) <
      (tierRange difficulty).2 - (tierRange difficulty).1 + 1 :=
    Nat.mod_lt _ (by omega)
  have hloop := pokeLoop_count (shuffleArray rng allPositions (k + 1)).1
    (copyGrid board) 0
    (81 - (rng k % ((tierRange difficulty).2 - (tierRange difficulty).1 + 1) +
      (tierRange difficulty).1))
    hshape hnodup hcells hsum (by omega)
  unfold pokeHolesRun
  simp only
  omega

/-- C7 witness: the clue-count bound instantiated at a concrete solved grid,
the easy tier, and the identity stream. -/
theorem pokeHoles_clue_count_witness :
    isSolvedGrid solvedGridA = true ∧
    ((tierRange "easy").1 ≤ nonZeros (pokeHolesRun solvedGridA "easy" (fun j => j) 0).1 ∧
    (nonZeros (pokeHolesRun solvedGridA "easy" (fun j => j) 0).1 ≤ (tierRange "easy").2 ∨
      ((tierRange "easy").2 < nonZeros (pokeHolesRun solvedGridA "easy" (fun j => j) 0).1 ∧
        (pokeHolesRun solvedGridA "easy" (fun j => j) 0).2.1 <
          81 - ((fun j => j) 0 % ((tierRange "easy").2 - (tierRange "easy").1 + 1) +
            (tierRange "easy").1)))) :=
  ⟨by decide, pokeHoles_clue_count solvedGridA "easy" (fun j => j) 0 (by decide)⟩

end SudokuGen
